import Mathlib

/- Verification of the drv probability engine: probability spaces
   (drv/pspace.py), random variables (drv/rv.py, drv/real.py) and the
   operator framework (drv/core.py).  The source computes with exact
   sympy rationals, so probabilities and values are embedded as
   rational numbers. -/

/-- Python sequence indexing as used by FDPSpace.p (drv/pspace.py, lines
245-250): the lookup self.ps[w] is guarded only by except IndexError,
which returns 0.  Python indexing accepts negative indices, counting
from the end of the sequence, so only indices outside the interval
from -len to len-1 raise IndexError. -/
def pyGet (l : List ℚ) (w : ℤ) : ℚ :=
  if 0 ≤ w then (if w < l.length then l.getD w.toNat 0 else 0)
  else (if -(l.length : ℤ) ≤ w then l.getD ((l.length : ℤ) + w).toNat 0 else 0)

/-- Message NEG_PROB of drv/pspace.py. -/
def NEG_PROB : String := "Cannot instantiate PSpace with negative probability."

/-- Message ZERO_PROB of drv/pspace.py (the source spells PSPace). -/
def ZERO_PROB : String := "Cannot instantiate PSPace with zero-sum probabilities."

/-- Message raised by the Python min builtin on an empty sequence. -/
def EMPTY_MIN : String := "min() arg is an empty sequence"

/-- The function f_normalize of drv/pspace.py (lines 68-81): raise if
min of the input is negative (min itself raises on an empty input),
raise if the sum is zero, else divide every entry by the sum. -/
def f_normalize (ps : List ℚ) : Except String (List ℚ) :=
  match ps.min? with
  | none => Except.error EMPTY_MIN
  | some m =>
    if m < 0 then Except.error NEG_PROB
    else if ps.sum = 0 then Except.error ZERO_PROB
    else Except.ok (ps.map (fun p => p / ps.sum))

/-- The probability function FDPSpace.p of a finite space whose stored
normalized list is qs (drv/pspace.py, lines 245-250). -/
def FDPSpace_p (qs : List ℚ) (w : ℤ) : ℚ := pyGet qs w

/-- A finite probability space object.  The field sid models Python
object identity: the pspace classes define no custom eq or hash, so
frozenset membership in RDRV.binop compares spaces by identity.  The
field ps is the stored (already normalized) probability list of the
FDPSpace. -/
structure Space where
  sid : ℕ
  ps : List ℚ
deriving DecidableEq

/-- A finite real-valued discrete random variable (FRDRV of
drv/real.py): a list of component probability spaces (DPSpace.pspaces
is the one-element tuple for a plain space, or the component tuple for
a ProductDPSpace) together with the measurable function from component
outcomes to values. -/
structure FRDRV where
  pspaces : List Space
  func : List ℕ → ℚ

/-- Outcome set of the (product of the) component spaces: FDPSpace.Omega
is the set of one-tuples over the index range, and ProductDPSpace.Omega
concatenates one tuple per component (drv/pspace.py, lines 237-239 and
294-297). -/
def OmegaList : List Space → List (List ℕ)
  | [] => [[]]
  | P :: rest => ((List.range P.ps.length).map (fun w => (OmegaList rest).map (w :: ·))).flatten

/-- Probability of a joint outcome: ProductDPSpace.p returns 0 when the
arity does not match the component count and otherwise multiplies the
component probabilities (drv/pspace.py, lines 306-310).  For a single
component this is FDPSpace.p of the single coordinate. -/
def probOf (comps : List Space) (ws : List ℕ) : ℚ :=
  if ws.length = comps.length then
    ((comps.zip ws).map (fun Pw => pyGet Pw.1.ps (Pw.2 : ℤ))).prod
  else 0

/-- Integration against the probability measure: the sum of func times
probability over the outcome set (FDPSpace.integrate, drv/pspace.py
lines 259-273, and ProductDPSpace.integrate, lines 312-319). -/
def integrate (comps : List Space) (f : List ℕ → ℚ) : ℚ :=
  ((OmegaList comps).map (fun ws => f ws * probOf comps ws)).sum

/-- The inner function built by RDRV.moment_func (drv/real.py, lines
108-111): x maps to ((func x - c) / s) to the power n. -/
def momentFunc (X : FRDRV) (n : ℕ) (c s : ℚ) : List ℕ → ℚ :=
  fun ws => ((X.func ws - c) / s) ^ n

/-- RDRV.moment: the raw moment of order n (drv/real.py, lines 113-115,
with the defaults c = 0 and s = 1). -/
def moment (X : FRDRV) (n : ℕ) : ℚ := integrate X.pspaces (momentFunc X n 0 1)

/-- RDRV.mean: the first raw moment (drv/real.py, lines 55-59). -/
def mean (X : FRDRV) : ℚ := moment X 1

/-- RDRV.central_moment (drv/real.py, lines 100-102). -/
def central_moment (X : FRDRV) (n : ℕ) : ℚ :=
  integrate X.pspaces (momentFunc X n (mean X) 1)

/-- RDRV.variance: the second central moment (drv/real.py, lines
87-91). -/
def variance (X : FRDRV) : ℚ := central_moment X 2

/-- Modelled from the spec: the module drv/functions.py, from which
drv/rv.py imports indicator, is absent from src/.  Per the spec the
indicator of a condition is 1 when it holds and 0 otherwise, so that
pmf sums the probabilities of the outcomes mapped to the given value
and cdf sums those of outcomes mapped at most to the argument. -/
def indicator (b : Prop) [Decidable b] : ℚ := if b then 1 else 0

/-- DRV.pmf (drv/rv.py, lines 102-106): integrate the indicator of the
event that func equals k.  Uses the spec-modelled indicator. -/
def pmf (X : FRDRV) (k : ℚ) : ℚ :=
  integrate X.pspaces (fun ws => indicator (X.func ws = k))

/-- RDRV.cdf (drv/real.py, lines 95-98): integrate the indicator of the
event that func is at most k.  Uses the spec-modelled indicator. -/
def cdf (X : FRDRV) (k : ℚ) : ℚ :=
  integrate X.pspaces (fun ws => indicator (X.func ws ≤ k))

/-- FDRV.support (drv/rv.py, lines 160-169): the values of func at the
outcomes of positive probability, as a list with possible repeats. -/
def supportList (X : FRDRV) : List ℚ :=
  ((OmegaList X.pspaces).filter (fun ws => decide (0 < probOf X.pspaces ws))).map X.func

/-- FDRV.support as the finite set of values. -/
def supportFinset (X : FRDRV) : Finset ℚ := (supportList X).toFinset

/-- The list sorted(self.support) built by FDRV.flatten (drv/rv.py,
line 202): the distinct support values in increasing order. -/
def sortedSupport (X : FRDRV) : List ℚ := Finset.sort (· ≤ ·) (supportFinset X)

/-- FDRV.flatten (drv/rv.py, lines 199-208): take ks, the sorted
support, take the pmf at each of its points, build the normalizing
FDPSpace over those masses (whose constructor raise paths appear as the
error case) and map each index w to ks[w].  The new FDPSpace is a fresh
object, modelled with identity 0; past the length of ks the Python
lookup ks[w] would raise, a branch never reached on the outcome set,
modelled by the default 0. -/
def flattenE (X : FRDRV) : Except String FRDRV :=
  match f_normalize ((sortedSupport X).map (pmf X)) with
  | Except.error e => Except.error e
  | Except.ok qs => Except.ok ⟨[⟨0, qs⟩], fun ws => (sortedSupport X).getD (ws.headD 0) 0⟩

/-- Lookup of the outcome of a given space identity in a sample, as in
DRV.sfunc (drv/rv.py, lines 54-69): the sample dictionary maps space
objects to outcomes.  The missing-key branch raises in the source and
is unreachable for samples built by binop, which cover all component
spaces of both operands; it is modelled by the default 0. -/
def lookupSid (sample : List (ℕ × ℕ)) (k : ℕ) : ℕ :=
  match sample.find? (fun e => decide (e.1 = k)) with
  | some e => e.2
  | none => 0

/-- DRV.sfunc (drv/rv.py, lines 54-69): collect the outcome of every
component space of the variable from the sample, in the order of its
own component list, and apply func. -/
def sfunc (X : FRDRV) (sample : List (ℕ × ℕ)) : ℚ :=
  X.func (X.pspaces.map (fun P => lookupSid sample P.sid))

/-- Helper for dedupById, carrying the identities already seen. -/
def dedupByIdAux : List Space → List ℕ → List Space
  | [], _ => []
  | P :: rest, seen =>
    if P.sid ∈ seen then dedupByIdAux rest seen
    else P :: dedupByIdAux rest (P.sid :: seen)

/-- The frozenset of component spaces built by RDRV.binop (drv/real.py,
line 180): spaces hash and compare by object identity, so the set keeps
one copy per identity.  The first occurrence is kept; the iteration
order of the frozenset does not affect any distribution quantity. -/
def dedupById (l : List Space) : List Space := dedupByIdAux l []

/-- The sample dictionary dict(zip(pspace.pspaces, ks)) built inside the
func of RDRV.binop (drv/real.py, line 194), keyed by space identity. -/
def sampleOf (comps : List Space) (ws : List ℕ) : List (ℕ × ℕ) :=
  (comps.map Space.sid).zip ws

/-- RDRV.binop for a random-variable operand (drv/real.py, lines
155-201): build the product space over the frozenset of both component
tuples and evaluate the operator on the sfunc values of both operands
under the joint sample. -/
def binop (X Y : FRDRV) (oper : ℚ → ℚ → ℚ) : FRDRV :=
  ⟨dedupById (X.pspaces ++ Y.pspaces),
   fun ws => oper (sfunc X (sampleOf (dedupById (X.pspaces ++ Y.pspaces)) ws))
                  (sfunc Y (sampleOf (dedupById (X.pspaces ++ Y.pspaces)) ws))⟩

/-- RDRV.add for a random-variable operand (drv/real.py, lines 211-217):
the shortcut for a falsy operand fires only for scalars (a random
variable object is always truthy in Python), so adding two random
variables delegates to binop with operator add. -/
def add (X Y : FRDRV) : FRDRV := binop X Y (fun a b => a + b)

/-- A random variable built directly over one finite space, as the dice
builders do: DPSpace.pspaces of a plain space is the one-element tuple
(drv/pspace.py, lines 126-128), and func consumes the single
coordinate. -/
def mkRV (P : Space) (f : ℕ → ℚ) : FRDRV := ⟨[P], fun ws => f (ws.headD 0)⟩

/- Component spaces for the product-space model of drv/pspace.py, with
possibly infinite members: FDPSpace carries an explicit probability
list, while the general countable space CDPSpace carries a probability
function and reports is_finite as False. -/

/-- A discrete probability space as seen by ProductDPSpace: either a
finite FDPSpace or a general countable space. -/
inductive DSpace where
  | fin (ps : List ℚ)
  | gen (p : ℕ → ℚ)

/-- The is_finite class attribute: True on FDPSpace (drv/pspace.py,
line 232), False on DPSpace and CDPSpace (line 104). -/
def DSpace_is_finite : DSpace → Bool
  | DSpace.fin _ => true
  | DSpace.gen _ => false

/-- The Omega property: FDPSpace.Omega is the set of one-tuples over
the index range (drv/pspace.py, lines 237-239); on a general space the
property raises NotImplementedError (line 106-108), modelled by none. -/
def DSpace_Omega : DSpace → Option (List (List ℕ))
  | DSpace.fin ps => some ((List.range ps.length).map (fun w => [w]))
  | DSpace.gen _ => none

/-- The probability function of a component space: FDPSpace.p with its
IndexError guard, or the stored function of a general space. -/
def DSpace_p : DSpace → ℕ → ℚ
  | DSpace.fin ps, w => pyGet ps (w : ℤ)
  | DSpace.gen p, w => p w

/-- The ProductDPSpace object: the init method stores the component
tuple exactly as passed and sets is_finite to the conjunction of the
component flags (drv/pspace.py, lines 290-292). -/
structure ProductDPSpace where
  pspaces : List DSpace
  is_finite : Bool

/-- ProductDPSpace construction (drv/pspace.py, lines 290-292). -/
def mkProduct (spaces : List DSpace) : ProductDPSpace :=
  ⟨spaces, spaces.all DSpace_is_finite⟩

/-- The generator (psp.Omega for psp in self.pspaces): evaluating any
component Omega may raise, in which case the whole product Omega
raises. -/
def seqOmegas : List DSpace → Option (List (List (List ℕ)))
  | [] => some []
  | c :: rest =>
    match DSpace_Omega c, seqOmegas rest with
    | some o, some os => some (o :: os)
    | _, _ => none

/-- The itertools product of the component outcome sets. -/
def crossL : List (List (List ℕ)) → List (List (List ℕ))
  | [] => [[]]
  | l :: rest => (l.map (fun x => (crossL rest).map (x :: ·))).flatten

/-- ProductDPSpace.Omega (drv/pspace.py, lines 294-297): the set of
concatenations sum(wt, ()) over the itertools product of the component
outcome sets. -/
def prodOmega (comps : List DSpace) : Option (List (List ℕ)) :=
  match seqOmegas comps with
  | some os => some ((crossL os).map List.flatten)
  | none => none

/-- ProductDPSpace.p (drv/pspace.py, lines 306-310): zero on arity
mismatch, else the product of the component probabilities of the
zipped coordinates. -/
def prod_p (comps : List DSpace) (ws : List ℕ) : ℚ :=
  if ws.length = comps.length then
    ((comps.zip ws).map (fun cw => DSpace_p cw.1 cw.2)).prod
  else 0

/- Model of the operator framework of drv/core.py.  A random variable
there exposes values, the list of pairs of a value and its probability;
the naive Operator operate enumerates the cross product of the pools
of values. -/

/-- The value-probability pairs of one random variable of drv/core.py. -/
abbrev RVdata := List (ℚ × ℚ)

/-- The itertools product over the values lists of the pool
(drv/core.py, line 80). -/
def crossTuples : List RVdata → List (List (ℚ × ℚ))
  | [] => [[]]
  | d :: rest => (d.map (fun vp => (crossTuples rest).map (vp :: ·))).flatten

/-- One defaultdict accumulation d[val] += p (drv/core.py, line 88). -/
def accum (d : RVdata) (v : ℚ) (p : ℚ) : RVdata :=
  if d.any (fun e => decide (e.1 = v)) then
    d.map (fun e => if e.1 = v then (e.1, e.2 + p) else e)
  else d ++ [(v, p)]

/-- The Python int builtin on an exact rational: truncation toward
zero, as applied at drv/core.py line 84. -/
def pyInt (v : ℚ) : ℤ := if 0 ≤ v then ⌊v⌋ else -⌊-v⌋

/-- The enumeration loop of Operator.operate (drv/core.py, lines
78-88): for each tuple of the cross product, evaluate the operator on
the values; under force_int, raise as soon as the result is not an
integer, otherwise replace it by its int image; accumulate the product
of the probabilities on the resulting value. -/
def operateGo (oper : List ℚ → ℚ) (forceInt : Bool) :
    RVdata → List (List (ℚ × ℚ)) → Except String RVdata
  | d, [] => Except.ok d
  | d, xp :: rest =>
    if forceInt then
      if (pyInt (oper (xp.map Prod.fst)) : ℚ) ≠ oper (xp.map Prod.fst) then
        Except.error "Output is not an integer."
      else
        operateGo oper forceInt
          (accum d ((pyInt (oper (xp.map Prod.fst)) : ℚ)) ((xp.map Prod.snd).prod)) rest
    else
      operateGo oper forceInt
        (accum d (oper (xp.map Prod.fst)) ((xp.map Prod.snd).prod)) rest

/-- Operator.operate, the naive product-enumeration strategy
(drv/core.py, lines 72-96), returning the accumulated value-mass
map. -/
def operate (oper : List ℚ → ℚ) (forceInt : Bool) (drvs : List RVdata) :
    Except String RVdata :=
  operateGo oper forceInt [] (crossTuples drvs)

/-- The constant random variable (drv/core.py, lines 563-565). -/
def constantRV (n : ℤ) : RVdata := [((n : ℚ), 1)]

/-- The left fold of ReduceOperator.reduce (drv/core.py, lines
123-132): combine the running result with the next variable through
the naive two-operand strategy. -/
def reduceGo (oper : List ℚ → ℚ) (forceInt : Bool) :
    RVdata → List RVdata → Except String RVdata
  | res, [] => Except.ok res
  | res, rv :: rest =>
    match operate oper forceInt [res, rv] with
    | Except.ok next => reduceGo oper forceInt next rest
    | Except.error e => Except.error e

/-- ReduceOperator.operate (drv/core.py, lines 106-113): on an empty
pool the code tests the truthiness of self.identity, so identity None
and identity 0 both fall through to the bare raise ValueError, while a
nonzero identity returns the constant variable; a nonempty pool is
left-folded. -/
def reduceOperate (oper : List ℚ → ℚ) (identity : Option ℤ) (forceInt : Bool)
    (pool : List RVdata) : Except String RVdata :=
  match pool with
  | [] =>
    match identity with
    | some v => if v = 0 then Except.error "ValueError" else Except.ok (constantRV v)
    | none => Except.error "ValueError"
  | d :: rest => reduceGo oper forceInt d rest

/- Basic list summation helpers. -/

lemma list_sum_map_flatten {α β : Type} (l : List α) (g : α → List β) (h : β → ℚ) :
    (((l.map g).flatten).map h).sum = (l.map (fun a => ((g a).map h).sum)).sum := by
  induction l with
  | nil => simp
  | cons a t ih =>
    rw [List.map_cons, List.flatten_cons, List.map_append, List.sum_append, ih,
      List.map_cons, List.sum_cons]

lemma list_sum_map_sub {α : Type} (l : List α) (f g : α → ℚ) :
    (l.map (fun x => f x - g x)).sum = (l.map f).sum - (l.map g).sum := by
  induction l with
  | nil => simp
  | cons a t ih => simp [ih]; ring

lemma list_sum_pos_mem (l : List ℚ) (x : ℚ) (hx : x ∈ l) (hnn : ∀ y ∈ l, 0 ≤ y)
    (hpos : 0 < x) : 0 < l.sum := by
  induction l with
  | nil => simp at hx
  | cons a t ih =>
    rcases List.mem_cons.mp hx with rfl | hxt
    · have : 0 ≤ t.sum := List.sum_nonneg (fun y hy => hnn y (List.mem_cons_of_mem _ hy))
      simp only [List.sum_cons]; linarith
    · have ha : 0 ≤ a := hnn a (List.mem_cons_self _ _)
      have := ih hxt (fun y hy => hnn y (List.mem_cons_of_mem _ hy))
      simp only [List.sum_cons]; linarith

lemma range_map_sum (n : ℕ) (f : ℕ → ℚ) :
    ((List.range n).map f).sum = ∑ i ∈ Finset.range n, f i := by
  induction n with
  | zero => simp
  | succ m ih => simp [List.range_succ, Finset.sum_range_succ, ih]

lemma sum_range_getD (l : List ℚ) :
    ∑ i ∈ Finset.range l.length, l.getD i 0 = l.sum := by
  induction l with
  | nil => simp
  | cons a t ih =>
    rw [List.length_cons, Finset.sum_range_succ']
    simp only [List.getD_cons_succ, List.getD_cons_zero, List.sum_cons, ih]
    ring

lemma list_finsetsum_swap {α β : Type} (S : Finset β) (L : List α) (g : β → α → ℚ) :
    ∑ v ∈ S, (L.map (g v)).sum = (L.map (fun a => ∑ v ∈ S, g v a)).sum := by
  induction L with
  | nil => simp
  | cons a t ih => simp [Finset.sum_add_distrib, ih]

/- Facts about pyGet. -/

lemma pyGet_lt (l : List ℚ) (w : ℕ) (h : w < l.length) : pyGet l (w : ℤ) = l.getD w 0 := by
  unfold pyGet
  rw [if_pos (Int.ofNat_nonneg w), if_pos (by exact_mod_cast h)]
  simp

lemma pyGet_nonneg (l : List ℚ) (w : ℤ) (h : ∀ q ∈ l, 0 ≤ q) : 0 ≤ pyGet l w := by
  have key : ∀ (i : ℕ), 0 ≤ l.getD i 0 := by
    intro i
    by_cases hi : i < l.length
    · rw [List.getD_eq_getElem l 0 hi]; exact h _ (List.getElem_mem hi)
    · rw [List.getD_eq_default l 0 (by omega)]
  unfold pyGet
  split
  · split
    · exact key _
    · exact le_refl 0
  · split
    · exact key _
    · exact le_refl 0

lemma sum_pyGet (l : List ℚ) :
    ∑ w ∈ Finset.range l.length, pyGet l (w : ℤ) = l.sum := by
  rw [← sum_range_getD l]
  exact Finset.sum_congr rfl (fun w hw => pyGet_lt l w (Finset.mem_range.mp hw))

/- Structure of probOf and integrate. -/

lemma probOf_nil : probOf [] [] = 1 := by simp [probOf]

lemma probOf_cons (P : Space) (rest : List Space) (w : ℕ) (ws : List ℕ) :
    probOf (P :: rest) (w :: ws) = pyGet P.ps (w : ℤ) * probOf rest ws := by
  unfold probOf
  by_cases h : ws.length = rest.length
  · rw [if_pos (by simp [h]), if_pos h, List.zip_cons_cons, List.map_cons, List.prod_cons]
  · rw [if_neg (by simp [h]), if_neg h, mul_zero]

lemma integrate_nil (f : List ℕ → ℚ) : integrate [] f = f [] := by
  simp [integrate, OmegaList, probOf]

lemma integrate_cons (P : Space) (rest : List Space) (f : List ℕ → ℚ) :
    integrate (P :: rest) f =
      ((List.range P.ps.length).map
        (fun w : ℕ => pyGet P.ps (w : ℤ) * integrate rest (fun ws => f (w :: ws)))).sum := by
  unfold integrate
  have hO : OmegaList (P :: rest)
      = ((List.range P.ps.length).map (fun w : ℕ => (OmegaList rest).map (w :: ·))).flatten := rfl
  rw [hO, list_sum_map_flatten]
  apply congrArg
  apply List.map_congr_left
  intro w _
  rw [List.map_map]
  have step : ((OmegaList rest).map ((fun ws => f ws * probOf (P :: rest) ws) ∘ (w :: ·)))
      = (OmegaList rest).map (fun ws => pyGet P.ps (w : ℤ) * (f (w :: ws) * probOf rest ws)) := by
    apply List.map_congr_left
    intro ws _
    simp only [Function.comp_apply, probOf_cons]
    ring
  rw [step, List.sum_map_mul_left]

lemma integrate_single (P : Space) (f : List ℕ → ℚ) :
    integrate [P] f = ∑ w ∈ Finset.range P.ps.length, pyGet P.ps (w : ℤ) * f [w] := by
  rw [integrate_cons, ← range_map_sum]
  apply congrArg
  apply List.map_congr_left
  intro w _
  rw [integrate_nil]

lemma integrate_pair (P Q : Space) (f : List ℕ → ℚ) :
    integrate [P, Q] f = ∑ w1 ∈ Finset.range P.ps.length, ∑ w2 ∈ Finset.range Q.ps.length,
      pyGet P.ps (w1 : ℤ) * (pyGet Q.ps (w2 : ℤ) * f [w1, w2]) := by
  rw [integrate_cons, ← range_map_sum]
  apply congrArg
  apply List.map_congr_left
  intro w1 _
  rw [integrate_single, Finset.mul_sum]

lemma integrate_congr (comps : List Space) (f g : List ℕ → ℚ)
    (h : ∀ ws ∈ OmegaList comps, f ws = g ws) : integrate comps f = integrate comps g := by
  unfold integrate
  apply congrArg
  exact List.map_congr_left (fun ws hws => by rw [h ws hws])

lemma probOf_nonneg (comps : List Space) (ws : List ℕ)
    (hnn : ∀ P ∈ comps, ∀ q ∈ P.ps, 0 ≤ q) : 0 ≤ probOf comps ws := by
  unfold probOf
  split
  · apply List.prod_nonneg
    intro a ha
    rcases List.mem_map.mp ha with ⟨⟨Pq, wq⟩, hmem, rfl⟩
    exact pyGet_nonneg _ _ (hnn _ (List.of_mem_zip hmem).1)
  · exact le_refl 0

/- Evaluation of the binop plumbing on one- and two-component pools. -/

lemma dedup_self (P : Space) : dedupById [P, P] = [P] := by
  simp [dedupById, dedupByIdAux]

lemma dedup_pair (P Q : Space) (h : P.sid ≠ Q.sid) : dedupById [P, Q] = [P, Q] := by
  simp [dedupById, dedupByIdAux, Ne.symm h]

lemma lookup_single (a x : ℕ) : lookupSid [(a, x)] a = x := by
  simp [lookupSid]

lemma lookup_pair_fst (a b x y : ℕ) : lookupSid [(a, x), (b, y)] a = x := by
  simp [lookupSid]

lemma lookup_pair_snd (a b x y : ℕ) (h : a ≠ b) : lookupSid [(a, x), (b, y)] b = y := by
  simp [lookupSid, List.find?, h]

lemma add_self_pspaces (P : Space) (f : ℕ → ℚ) :
    (add (mkRV P f) (mkRV P f)).pspaces = [P] := by
  simp [add, binop, mkRV, dedup_self]

lemma add_self_func (P : Space) (f : ℕ → ℚ) (w : ℕ) :
    (add (mkRV P f) (mkRV P f)).func [w] = f w + f w := by
  show (binop (mkRV P f) (mkRV P f) (fun a b => a + b)).func [w] = f w + f w
  simp [binop, mkRV, dedup_self, sampleOf, sfunc, lookup_single]

lemma add_disjoint_pspaces (P Q : Space) (f g : ℕ → ℚ) (h : P.sid ≠ Q.sid) :
    (add (mkRV P f) (mkRV Q g)).pspaces = [P, Q] := by
  simp [add, binop, mkRV, dedup_pair P Q h]

lemma add_disjoint_func (P Q : Space) (f g : ℕ → ℚ) (h : P.sid ≠ Q.sid) (w1 w2 : ℕ) :
    (add (mkRV P f) (mkRV Q g)).func [w1, w2] = f w1 + g w2 := by
  show (binop (mkRV P f) (mkRV Q g) (fun a b => a + b)).func [w1, w2] = f w1 + g w2
  simp only [binop, mkRV]
  simp [dedup_pair P Q h, sampleOf, sfunc, lookup_pair_fst, lookup_pair_snd P.sid Q.sid w1 w2 h]

/- Closed forms of mean and variance for a variable over one space. -/

lemma momentFunc_one (X : FRDRV) : momentFunc X 1 0 1 = X.func := by
  funext ws; simp [momentFunc]

lemma mean_eval (X : FRDRV) : mean X = integrate X.pspaces X.func := by
  rw [mean, moment, momentFunc_one]

lemma variance_eval (X : FRDRV) :
    variance X = integrate X.pspaces (fun ws => (X.func ws - mean X) ^ 2) := by
  rw [variance, central_moment]
  have : momentFunc X 2 (mean X) 1 = fun ws => (X.func ws - mean X) ^ 2 := by
    funext ws; simp [momentFunc]
  rw [this]

lemma mean_mkRV (P : Space) (f : ℕ → ℚ) :
    mean (mkRV P f) = ∑ w ∈ Finset.range P.ps.length, pyGet P.ps (w : ℤ) * f w := by
  rw [mean_eval]
  show integrate [P] (mkRV P f).func = _
  rw [integrate_single]
  rfl

lemma variance_mkRV (P : Space) (f : ℕ → ℚ) :
    variance (mkRV P f) =
      ∑ w ∈ Finset.range P.ps.length, pyGet P.ps (w : ℤ) * (f w - mean (mkRV P f)) ^ 2 := by
  rw [variance_eval]
  show integrate [P] _ = _
  rw [integrate_single]
  rfl

lemma mean_mkRV_ps (P Q : Space) (f : ℕ → ℚ) (h : Q.ps = P.ps) :
    mean (mkRV Q f) = mean (mkRV P f) := by
  rw [mean_mkRV, mean_mkRV, h]

lemma variance_mkRV_ps (P Q : Space) (f : ℕ → ℚ) (h : Q.ps = P.ps) :
    variance (mkRV Q f) = variance (mkRV P f) := by
  rw [variance_mkRV, variance_mkRV, h, mean_mkRV_ps P Q f h]

/- Mean and variance of the sum of two variables over distinct spaces. -/

lemma mean_add_pair (P Q : Space) (f g : ℕ → ℚ) (hsid : P.sid ≠ Q.sid)
    (hP : P.ps.sum = 1) (hQ : Q.ps.sum = 1) :
    mean (add (mkRV P f) (mkRV Q g)) = mean (mkRV P f) + mean (mkRV Q g) := by
  have hp1 : ∑ w ∈ Finset.range P.ps.length, pyGet P.ps (w : ℤ) = 1 := by
    rw [sum_pyGet]; exact hP
  have hq1 : ∑ w ∈ Finset.range Q.ps.length, pyGet Q.ps (w : ℤ) = 1 := by
    rw [sum_pyGet]; exact hQ
  rw [mean_eval, add_disjoint_pspaces P Q f g hsid, integrate_pair]
  have inner : ∀ w1 : ℕ, ∑ w2 ∈ Finset.range Q.ps.length,
      pyGet P.ps (w1 : ℤ) * (pyGet Q.ps (w2 : ℤ) * (add (mkRV P f) (mkRV Q g)).func [w1, w2])
      = pyGet P.ps (w1 : ℤ) * f w1
        + pyGet P.ps (w1 : ℤ) * (∑ w2 ∈ Finset.range Q.ps.length, pyGet Q.ps (w2 : ℤ) * g w2) := by
    intro w1
    have point : ∀ w2 ∈ Finset.range Q.ps.length,
        pyGet P.ps (w1 : ℤ) * (pyGet Q.ps (w2 : ℤ) * (add (mkRV P f) (mkRV Q g)).func [w1, w2])
        = (pyGet P.ps (w1 : ℤ) * f w1) * pyGet Q.ps (w2 : ℤ)
          + pyGet P.ps (w1 : ℤ) * (pyGet Q.ps (w2 : ℤ) * g w2) := by
      intro w2 _
      rw [add_disjoint_func P Q f g hsid w1 w2]; ring
    rw [Finset.sum_congr rfl point, Finset.sum_add_distrib, ← Finset.mul_sum, hq1, mul_one,
      ← Finset.mul_sum]
  rw [Finset.sum_congr rfl (fun w1 _ => inner w1), Finset.sum_add_distrib, ← Finset.sum_mul,
    hp1, one_mul, mean_mkRV, mean_mkRV]

lemma double_sum_var (n m : ℕ) (p q a b : ℕ → ℚ)
    (hp : ∑ w ∈ Finset.range n, p w = 1) (hq : ∑ w ∈ Finset.range m, q w = 1)
    (hb : ∑ w ∈ Finset.range m, q w * b w = 0) :
    ∑ w1 ∈ Finset.range n, ∑ w2 ∈ Finset.range m, p w1 * (q w2 * (a w1 + b w2) ^ 2)
      = ∑ w1 ∈ Finset.range n, p w1 * a w1 ^ 2 + ∑ w2 ∈ Finset.range m, q w2 * b w2 ^ 2 := by
  have inner : ∀ w1 : ℕ, ∑ w2 ∈ Finset.range m, p w1 * (q w2 * (a w1 + b w2) ^ 2)
      = p w1 * a w1 ^ 2 + p w1 * (∑ w2 ∈ Finset.range m, q w2 * b w2 ^ 2) := by
    intro w1
    have point : ∀ w2 ∈ Finset.range m, p w1 * (q w2 * (a w1 + b w2) ^ 2)
        = (p w1 * a w1 ^ 2) * q w2 + ((2 * (p w1 * a w1)) * (q w2 * b w2)
          + p w1 * (q w2 * b w2 ^ 2)) := by
      intro w2 _; ring
    rw [Finset.sum_congr rfl point, Finset.sum_add_distrib, ← Finset.mul_sum, hq, mul_one,
      Finset.sum_add_distrib, ← Finset.mul_sum, hb, mul_zero, zero_add, ← Finset.mul_sum]
  rw [Finset.sum_congr rfl (fun w1 _ => inner w1), Finset.sum_add_distrib, ← Finset.sum_mul,
    hp, one_mul]

lemma centered_sum_zero (P : Space) (f : ℕ → ℚ) (hP : P.ps.sum = 1) :
    ∑ w ∈ Finset.range P.ps.length, pyGet P.ps (w : ℤ) * (f w - mean (mkRV P f)) = 0 := by
  have hp1 : ∑ w ∈ Finset.range P.ps.length, pyGet P.ps (w : ℤ) = 1 := by
    rw [sum_pyGet]; exact hP
  have point : ∀ w ∈ Finset.range P.ps.length,
      pyGet P.ps (w : ℤ) * (f w - mean (mkRV P f))
      = pyGet P.ps (w : ℤ) * f w - mean (mkRV P f) * pyGet P.ps (w : ℤ) := by
    intro w _; ring
  rw [Finset.sum_congr rfl point, Finset.sum_sub_distrib, ← Finset.mul_sum, hp1, mul_one,
    ← mean_mkRV, sub_self]

lemma variance_add_pair (P Q : Space) (f g : ℕ → ℚ) (hsid : P.sid ≠ Q.sid)
    (hP : P.ps.sum = 1) (hQ : Q.ps.sum = 1) :
    variance (add (mkRV P f) (mkRV Q g)) = variance (mkRV P f) + variance (mkRV Q g) := by
  have hp1 : ∑ w ∈ Finset.range P.ps.length, pyGet P.ps (w : ℤ) = 1 := by
    rw [sum_pyGet]; exact hP
  have hq1 : ∑ w ∈ Finset.range Q.ps.length, pyGet Q.ps (w : ℤ) = 1 := by
    rw [sum_pyGet]; exact hQ
  have hmean : mean (add (mkRV P f) (mkRV Q g)) = mean (mkRV P f) + mean (mkRV Q g) :=
    mean_add_pair P Q f g hsid hP hQ
  rw [variance_eval, add_disjoint_pspaces P Q f g hsid, integrate_pair]
  have point : ∀ w1 ∈ Finset.range P.ps.length, ∀ w2 ∈ Finset.range Q.ps.length,
      pyGet P.ps (w1 : ℤ) * (pyGet Q.ps (w2 : ℤ)
        * ((add (mkRV P f) (mkRV Q g)).func [w1, w2] - mean (add (mkRV P f) (mkRV Q g))) ^ 2)
      = pyGet P.ps (w1 : ℤ) * (pyGet Q.ps (w2 : ℤ)
        * ((f w1 - mean (mkRV P f)) + (g w2 - mean (mkRV Q g))) ^ 2) := by
    intro w1 _ w2 _
    rw [add_disjoint_func P Q f g hsid w1 w2, hmean]
    ring_nf
  rw [Finset.sum_congr rfl (fun w1 h1 => Finset.sum_congr rfl (fun w2 h2 => point w1 h1 w2 h2))]
  rw [double_sum_var P.ps.length Q.ps.length _ _ _ _ hp1 hq1 (centered_sum_zero Q g hQ)]
  rw [variance_mkRV, variance_mkRV]

lemma mean_add_self (P : Space) (f : ℕ → ℚ) :
    mean (add (mkRV P f) (mkRV P f)) = 2 * mean (mkRV P f) := by
  rw [mean_eval, add_self_pspaces, integrate_single]
  have point : ∀ w ∈ Finset.range P.ps.length,
      pyGet P.ps (w : ℤ) * (add (mkRV P f) (mkRV P f)).func [w]
      = 2 * (pyGet P.ps (w : ℤ) * f w) := by
    intro w _; rw [add_self_func]; ring
  rw [Finset.sum_congr rfl point, ← Finset.mul_sum, mean_mkRV]

lemma variance_add_self (P : Space) (f : ℕ → ℚ) :
    variance (add (mkRV P f) (mkRV P f)) = 4 * variance (mkRV P f) := by
  have h2 := mean_add_self P f
  rw [variance_eval, add_self_pspaces, integrate_single]
  have point : ∀ w ∈ Finset.range P.ps.length,
      pyGet P.ps (w : ℤ) * ((add (mkRV P f) (mkRV P f)).func [w]
        - mean (add (mkRV P f) (mkRV P f))) ^ 2
      = 4 * (pyGet P.ps (w : ℤ) * (f w - mean (mkRV P f)) ^ 2) := by
    intro w _; rw [add_self_func, h2]; ring
  rw [Finset.sum_congr rfl point, ← Finset.mul_sum, variance_mkRV]

/-- C1: for a random variable X built over a probability space P, adding
X to itself combines X with the same space object, which the binop
frozenset deduplicates, so the sum is perfectly correlated with X:
its mean is 2 mean X and its variance is 4 variance X.  Adding instead
an independent identically distributed copy Y, built over a distinct
space object with the same probability list and the same value
function, gives variance 2 variance X. -/
theorem self_sum_vs_independent_sum (P Q : Space) (f : ℕ → ℚ)
    (hsid : P.sid ≠ Q.sid) (hps : Q.ps = P.ps) (hsum : P.ps.sum = 1) :
    mean (add (mkRV P f) (mkRV P f)) = 2 * mean (mkRV P f)
    ∧ variance (add (mkRV P f) (mkRV P f)) = 4 * variance (mkRV P f)
    ∧ variance (add (mkRV P f) (mkRV Q f)) = 2 * variance (mkRV P f) := by
  refine ⟨mean_add_self P f, variance_add_self P f, ?_⟩
  have hQsum : Q.ps.sum = 1 := by rw [hps]; exact hsum
  rw [variance_add_pair P Q f f hsid hsum hQsum, variance_mkRV_ps P Q f hps, two_mul]

/-- Witness for C1: a fair coin space with identity 0 and a distinct
identically distributed copy with identity 1, with the identity value
function. -/
theorem self_sum_vs_independent_sum_witness :
    ((⟨0, [1/2, 1/2]⟩ : Space).sid ≠ (⟨1, [1/2, 1/2]⟩ : Space).sid)
    ∧ ((⟨0, [1/2, 1/2]⟩ : Space).ps.sum = 1)
    ∧ (mean (add (mkRV ⟨0, [1/2, 1/2]⟩ (fun w => (w : ℚ))) (mkRV ⟨0, [1/2, 1/2]⟩ (fun w => (w : ℚ))))
        = 2 * mean (mkRV ⟨0, [1/2, 1/2]⟩ (fun w => (w : ℚ)))
      ∧ variance (add (mkRV ⟨0, [1/2, 1/2]⟩ (fun w => (w : ℚ))) (mkRV ⟨0, [1/2, 1/2]⟩ (fun w => (w : ℚ))))
          = 4 * variance (mkRV ⟨0, [1/2, 1/2]⟩ (fun w => (w : ℚ)))
      ∧ variance (add (mkRV ⟨0, [1/2, 1/2]⟩ (fun w => (w : ℚ))) (mkRV ⟨1, [1/2, 1/2]⟩ (fun w => (w : ℚ))))
          = 2 * variance (mkRV ⟨0, [1/2, 1/2]⟩ (fun w => (w : ℚ)))) :=
  ⟨by decide, by norm_num,
    self_sum_vs_independent_sum ⟨0, [1/2, 1/2]⟩ ⟨1, [1/2, 1/2]⟩ (fun w => (w : ℚ))
      (by decide) rfl (by norm_num)⟩

/-- C6: linearity of expectation for a sum of two random variables built
over distinct probability space objects with normalized probability
lists: the mean of the binop sum over the two-component product space
is the sum of the means, exactly. -/
theorem linearity_of_expectation (P Q : Space) (f g : ℕ → ℚ) (hsid : P.sid ≠ Q.sid)
    (hP : P.ps.sum = 1) (hQ : Q.ps.sum = 1) :
    mean (add (mkRV P f) (mkRV Q g)) = mean (mkRV P f) + mean (mkRV Q g) :=
  mean_add_pair P Q f g hsid hP hQ

/-- Witness for C6: a fair coin and a distinct three-outcome space. -/
theorem linearity_of_expectation_witness :
    ((⟨0, [1/2, 1/2]⟩ : Space).sid ≠ (⟨1, [1/6, 1/3, 1/2]⟩ : Space).sid)
    ∧ ((⟨0, [1/2, 1/2]⟩ : Space).ps.sum = 1)
    ∧ ((⟨1, [1/6, 1/3, 1/2]⟩ : Space).ps.sum = 1)
    ∧ mean (add (mkRV ⟨0, [1/2, 1/2]⟩ (fun w => (w : ℚ)))
              (mkRV ⟨1, [1/6, 1/3, 1/2]⟩ (fun w => (w : ℚ) + 1)))
        = mean (mkRV ⟨0, [1/2, 1/2]⟩ (fun w => (w : ℚ)))
          + mean (mkRV ⟨1, [1/6, 1/3, 1/2]⟩ (fun w => (w : ℚ) + 1)) :=
  ⟨by decide, by norm_num, by norm_num,
    linearity_of_expectation ⟨0, [1/2, 1/2]⟩ ⟨1, [1/6, 1/3, 1/2]⟩ (fun w => (w : ℚ))
      (fun w => (w : ℚ) + 1) (by decide) (by norm_num) (by norm_num)⟩

/-- C2: for a nonempty probability sequence, FDPSpace construction
through f_normalize fails exactly when some entry is negative or the
sum is zero; otherwise the stored space satisfies p(i) equal to the
entry divided by the total for every index below the length, and the
normalized probabilities sum to 1. -/
theorem finite_space_construction (ps : List ℚ) (hne : ps ≠ []) :
    ((∃ e, f_normalize ps = Except.error e) ↔ ((∃ x ∈ ps, x < 0) ∨ ps.sum = 0))
    ∧ (∀ qs, f_normalize ps = Except.ok qs →
        (∀ i : ℕ, i < ps.length → FDPSpace_p qs (i : ℤ) = ps.getD i 0 / ps.sum)
        ∧ qs.sum = 1) := by
  obtain ⟨m, hm⟩ : ∃ m, ps.min? = some m := by
    cases h : ps.min? with
    | none => exact absurd (List.min?_eq_none_iff.mp h) hne
    | some m => exact ⟨m, rfl⟩
  have hmem : m ∈ ps ∧ ∀ b ∈ ps, m ≤ b :=
    (@List.min?_eq_some_iff ℚ m _ _ ⟨fun h1 h2 => le_antisymm h1 h2⟩
      (fun a => le_refl a) (fun a b => min_choice a b) (fun a b c => le_min_iff)).mp hm
  have hfn : f_normalize ps =
      (if m < 0 then Except.error NEG_PROB
       else if ps.sum = 0 then Except.error ZERO_PROB
       else Except.ok (ps.map (fun p => p / ps.sum))) := by
    unfold f_normalize
    rw [hm]
  constructor
  · constructor
    · rintro ⟨e, he⟩
      rw [hfn] at he
      by_cases h1 : m < 0
      · exact Or.inl ⟨m, hmem.1, h1⟩
      · rw [if_neg h1] at he
        by_cases h2 : ps.sum = 0
        · exact Or.inr h2
        · rw [if_neg h2] at he
          exact absurd he (by simp)
    · intro h
      rw [hfn]
      by_cases h1 : m < 0
      · rw [if_pos h1]; exact ⟨NEG_PROB, rfl⟩
      · have hsum0 : ps.sum = 0 := by
          rcases h with ⟨x, hx, hxneg⟩ | h2
          · exact absurd (lt_of_le_of_lt (hmem.2 x hx) hxneg) h1
          · exact h2
        rw [if_neg h1, if_pos hsum0]
        exact ⟨ZERO_PROB, rfl⟩
  · intro qs hq
    rw [hfn] at hq
    by_cases h1 : m < 0
    · rw [if_pos h1] at hq; exact absurd hq (by simp)
    rw [if_neg h1] at hq
    by_cases h2 : ps.sum = 0
    · rw [if_pos h2] at hq; exact absurd hq (by simp)
    rw [if_neg h2] at hq
    have hqs : ps.map (fun p => p / ps.sum) = qs := by simpa using hq
    constructor
    · intro i hi
      rw [← hqs]
      have hlen : i < (ps.map (fun p => p / ps.sum)).length := by simpa using hi
      rw [FDPSpace_p, pyGet_lt _ i hlen, List.getD_eq_getElem _ _ hlen, List.getElem_map,
        List.getD_eq_getElem _ _ hi]
    · rw [← hqs]
      have hdiv : (ps.map (fun p => p / ps.sum)).sum = ps.sum * (ps.sum)⁻¹ := by
        simp only [div_eq_mul_inv]
        rw [List.sum_map_mul_right ps (fun p => p) (ps.sum)⁻¹, List.map_id']
      rw [hdiv, mul_inv_cancel₀ h2]

/-- Witness for C2 at the unnormalized input of two entries 1 and 3. -/
theorem finite_space_construction_witness :
    (([(1 : ℚ), 3] : List ℚ) ≠ [])
    ∧ (((∃ e, f_normalize [(1 : ℚ), 3] = Except.error e)
          ↔ ((∃ x ∈ [(1 : ℚ), 3], x < 0) ∨ ([(1 : ℚ), 3] : List ℚ).sum = 0))
       ∧ (∀ qs, f_normalize [(1 : ℚ), 3] = Except.ok qs →
            (∀ i : ℕ, i < ([(1 : ℚ), 3] : List ℚ).length →
              FDPSpace_p qs (i : ℤ) = ([(1 : ℚ), 3] : List ℚ).getD i 0 / ([(1 : ℚ), 3] : List ℚ).sum)
            ∧ qs.sum = 1)) :=
  ⟨by simp, finite_space_construction [(1 : ℚ), 3] (by simp)⟩

/-- C10: the probability function of a finite space with stored list qs
returns 0 for every integer index at or above the length, but for a
negative index w with -(length) at most w at most -1 it returns the
entry at position length + w, counted from the end of the list, because
the lookup is guarded only against IndexError and Python indexing
accepts negative indices. -/
theorem fdpspace_p_negative_index (qs : List ℚ) (w : ℤ) :
    ((qs.length : ℤ) ≤ w → FDPSpace_p qs w = 0)
    ∧ (-(qs.length : ℤ) ≤ w → w ≤ -1 → FDPSpace_p qs w = qs.getD ((qs.length : ℤ) + w).toNat 0) := by
  constructor
  · intro h
    unfold FDPSpace_p pyGet
    rw [if_pos (by omega), if_neg (by omega)]
  · intro h1 h2
    unfold FDPSpace_p pyGet
    rw [if_neg (by omega), if_pos h1]

/-- Witness for C10 on the stored list with entries 1/2, 1/3, 1/6: the
index 5 is out of range and gives 0, while the index -1 gives the entry
in position 2. -/
theorem fdpspace_p_negative_index_witness :
    ((([(1 : ℚ)/2, 1/3, 1/6] : List ℚ).length : ℤ) ≤ 5
      ∧ FDPSpace_p [(1 : ℚ)/2, 1/3, 1/6] 5 = 0)
    ∧ (-((([(1 : ℚ)/2, 1/3, 1/6] : List ℚ).length : ℤ)) ≤ -1 ∧ (-1 : ℤ) ≤ -1
      ∧ FDPSpace_p [(1 : ℚ)/2, 1/3, 1/6] (-1)
          = ([(1 : ℚ)/2, 1/3, 1/6] : List ℚ).getD
              (((([(1 : ℚ)/2, 1/3, 1/6] : List ℚ).length : ℤ) + -1).toNat) 0) :=
  ⟨⟨by simp, (fdpspace_p_negative_index [(1 : ℚ)/2, 1/3, 1/6] 5).1 (by simp)⟩,
   ⟨by simp, le_refl _,
    (fdpspace_p_negative_index [(1 : ℚ)/2, 1/3, 1/6] (-1)).2 (by simp) (le_refl _)⟩⟩

/-- C3 counterexample: ProductDPSpace performs no deduplication itself.
Passing the same finite space twice stores it twice, so the outcome set
is the squared set of pairs and the probability function rejects the
single-coordinate outcome that the component space accepts. -/
theorem product_no_dedup_counterexample :
    (mkProduct [DSpace.fin [1/2, 1/2], DSpace.fin [1/2, 1/2]]).pspaces.length = 2
    ∧ prodOmega [DSpace.fin [1/2, 1/2], DSpace.fin [1/2, 1/2]]
        = some [[0, 0], [0, 1], [1, 0], [1, 1]]
    ∧ DSpace_Omega (DSpace.fin [1/2, 1/2]) = some [[0], [1]]
    ∧ prod_p [DSpace.fin [1/2, 1/2], DSpace.fin [1/2, 1/2]] [0] = 0
    ∧ DSpace_p (DSpace.fin [1/2, 1/2]) 0 = 1 / 2 := by
  refine ⟨rfl, ?_, ?_, rfl, ?_⟩
  · simp [prodOmega, seqOmegas, DSpace_Omega, crossL, List.range_succ]
  · simp [DSpace_Omega, List.range_succ]
  · simp [DSpace_p, pyGet]

/-- C3 amended: the identity deduplication happens one layer up, in
RDRV.binop, whose frozenset of the two operand component tuples keeps a
shared space object once, so combining two variables over the same
space produces a product with that space as its only component. -/
theorem binop_dedups_shared_space (P : Space) (f g : ℕ → ℚ) (oper : ℚ → ℚ → ℚ) :
    (binop (mkRV P f) (mkRV P g) oper).pspaces = [P] := by
  simp [binop, mkRV, dedup_self]

/- Helper lemmas for the product-space characterization. -/

lemma seqOmegas_fins (pss : List (List ℚ)) :
    seqOmegas (pss.map DSpace.fin)
    = some (pss.map (fun ps => (List.range ps.length).map (fun w => [w]))) := by
  induction pss with
  | nil => rfl
  | cons a t ih => simp [seqOmegas, DSpace_Omega, ih]

lemma crossL_cons (l : List (List ℕ)) (rest : List (List (List ℕ))) :
    (crossL (l :: rest)).map List.flatten
    = l.flatMap (fun x => ((crossL rest).map List.flatten).map (fun t => x ++ t)) := by
  rw [crossL, List.map_flatten, List.flatMap_def]
  congr 1
  rw [List.map_map]
  apply List.map_congr_left
  intro x _
  simp only [Function.comp_apply, List.map_map]
  apply List.map_congr_left
  intro t _
  simp [Function.comp, List.flatten_cons]

lemma crossFlat_char (pss : List (List ℚ)) (ws : List ℕ) :
    ws ∈ (crossL (pss.map (fun ps => (List.range ps.length).map (fun w => [w])))).map List.flatten
    ↔ (ws.length = pss.length
       ∧ ∀ i : ℕ, i < pss.length → ws.getD i 0 < (pss.getD i []).length) := by
  induction pss generalizing ws with
  | nil =>
    simp only [List.map_nil, crossL, List.map_cons, List.flatten_nil, List.map_nil]
    constructor
    · intro h
      have : ws = [] := by simpa using h
      subst this
      exact ⟨rfl, by intro i hi; simp at hi⟩
    · rintro ⟨h, _⟩
      have : ws = [] := List.length_eq_zero.mp (by simpa using h)
      subst this
      simp
  | cons a t ih =>
    rw [List.map_cons, crossL_cons]
    rw [List.mem_flatMap]
    constructor
    · rintro ⟨x, hx, hmem⟩
      rcases List.mem_map.mp hx with ⟨w, hw, rfl⟩
      have hw' : w < a.length := List.mem_range.mp hw
      rcases List.mem_map.mp hmem with ⟨tl, htl, rfl⟩
      obtain ⟨hlen, hbound⟩ := (ih tl).mp htl
      refine ⟨by simp [hlen], ?_⟩
      intro i hi
      cases i with
      | zero => simpa using hw'
      | succ j =>
        have hj : j < t.length := by
          simp only [List.length_cons] at hi; omega
        have := hbound j hj
        simpa using this
    · rintro ⟨hlen, hbound⟩
      cases ws with
      | nil => simp at hlen
      | cons w tl =>
        refine ⟨[w], List.mem_map.mpr ⟨w, List.mem_range.mpr ?_, rfl⟩,
          List.mem_map.mpr ⟨tl, (ih tl).mpr ⟨?_, ?_⟩, by simp⟩⟩
        · have := hbound 0 (by simp)
          simpa using this
        · simpa using hlen
        · intro j hj
          have := hbound (j + 1) (by simp only [List.length_cons]; omega)
          simpa using this

lemma zip_prod_range (comps : List DSpace) (ws : List ℕ) (h : ws.length = comps.length) :
    ((comps.zip ws).map (fun cw => DSpace_p cw.1 cw.2)).prod
    = ∏ i ∈ Finset.range comps.length, DSpace_p (comps.getD i (DSpace.fin [])) (ws.getD i 0) := by
  induction comps generalizing ws with
  | nil =>
    have : ws = [] := List.length_eq_zero.mp (by simpa using h)
    subst this
    simp
  | cons c t ih =>
    cases ws with
    | nil => simp at h
    | cons w tl =>
      have hlen : tl.length = t.length := by simpa using h
      rw [List.zip_cons_cons, List.map_cons, List.prod_cons, ih tl hlen,
        List.length_cons, Finset.prod_range_succ']
      simp only [List.getD_cons_succ, List.getD_cons_zero]
      rw [mul_comm]

/-- C4: a product space is finite exactly when every component is; over
finite components its outcome set is the Cartesian product of the
component index ranges, and its probability function on a tuple of
matching arity is the product of the component probabilities of the
coordinates. -/
theorem product_space_shape (comps : List DSpace) :
    ((mkProduct comps).is_finite = true ↔ ∀ c ∈ comps, DSpace_is_finite c = true)
    ∧ (∀ pss : List (List ℚ), comps = pss.map DSpace.fin →
        ((∃ L, prodOmega comps = some L ∧
            ∀ ws : List ℕ, ws ∈ L ↔ (ws.length = pss.length
              ∧ ∀ i : ℕ, i < pss.length → ws.getD i 0 < (pss.getD i []).length))
         ∧ (∀ ws : List ℕ, ws.length = comps.length →
              prod_p comps ws = ∏ i ∈ Finset.range comps.length,
                DSpace_p (comps.getD i (DSpace.fin [])) (ws.getD i 0)))) := by
  constructor
  · simp [mkProduct, List.all_eq_true]
  · rintro pss rfl
    constructor
    · refine ⟨(crossL (pss.map (fun ps => (List.range ps.length).map (fun w => [w])))).map
        List.flatten, ?_, fun ws => crossFlat_char pss ws⟩
      rw [prodOmega, seqOmegas_fins]
    · intro ws h
      rw [prod_p, if_pos h, zip_prod_range _ _ h]

/-- Witness for C4 on a two-component finite product and a mixed
finite-infinite pool for the finiteness flag. -/
theorem product_space_shape_witness :
    ((mkProduct [DSpace.fin [1/2, 1/2], DSpace.fin [1]]).is_finite = true
      ↔ ∀ c ∈ [DSpace.fin [1/2, 1/2], DSpace.fin [1]], DSpace_is_finite c = true)
    ∧ (∃ L, prodOmega [DSpace.fin [1/2, 1/2], DSpace.fin [1]] = some L ∧
        ∀ ws : List ℕ, ws ∈ L ↔ (ws.length = ([[(1 : ℚ)/2, 1/2], [1]] : List (List ℚ)).length
          ∧ ∀ i : ℕ, i < ([[(1 : ℚ)/2, 1/2], [1]] : List (List ℚ)).length →
              ws.getD i 0 < (([[(1 : ℚ)/2, 1/2], [1]] : List (List ℚ)).getD i []).length))
    ∧ prod_p [DSpace.fin [1/2, 1/2], DSpace.fin [1]] [1, 0]
        = ∏ i ∈ Finset.range ([DSpace.fin [(1 : ℚ)/2, 1/2], DSpace.fin [1]] : List DSpace).length,
            DSpace_p (([DSpace.fin [(1 : ℚ)/2, 1/2], DSpace.fin [1]] : List DSpace).getD i
              (DSpace.fin [])) (([1, 0] : List ℕ).getD i 0) :=
  ⟨(product_space_shape [DSpace.fin [1/2, 1/2], DSpace.fin [1]]).1,
   ((product_space_shape [DSpace.fin [1/2, 1/2], DSpace.fin [1]]).2
      [[(1 : ℚ)/2, 1/2], [1]] rfl).1,
   ((product_space_shape [DSpace.fin [1/2, 1/2], DSpace.fin [1]]).2
      [[(1 : ℚ)/2, 1/2], [1]] rfl).2 [1, 0] rfl⟩

/-- C7: evaluation of ReduceOperator.operate on an empty pool.  The sum
operator carries identity 0, yet the truthiness test on the identity
treats 0 like None, so the empty sum raises instead of returning the
constant 0; the product operator with identity 1 returns the constant
1, and an operator with no identity raises. -/
theorem reduce_empty_pool_behaviour :
    reduceOperate (fun xs => xs.sum) (some 0) true [] = Except.error "ValueError"
    ∧ reduceOperate (fun xs => xs.prod) (some 1) true [] = Except.ok (constantRV 1)
    ∧ reduceOperate (fun xs => xs.foldl max 0) none true [] = Except.error "ValueError" :=
  ⟨rfl, rfl, rfl⟩

lemma operateGo_error (oper : List ℚ → ℚ) (l : List (List (ℚ × ℚ))) (d : RVdata)
    (h : ∃ xp ∈ l, (pyInt (oper (xp.map Prod.fst)) : ℚ) ≠ oper (xp.map Prod.fst)) :
    operateGo oper true d l = Except.error "Output is not an integer." := by
  induction l generalizing d with
  | nil =>
    rcases h with ⟨xp, hmem, _⟩
    simp at hmem
  | cons y rest ih =>
    by_cases hy : (pyInt (oper (y.map Prod.fst)) : ℚ) ≠ oper (y.map Prod.fst)
    · unfold operateGo
      rw [if_pos rfl, if_pos hy]
    · rcases h with ⟨xp, hmem, hxp⟩
      rcases List.mem_cons.mp hmem with rfl | hrest
      · exact absurd hxp hy
      · unfold operateGo
        rw [if_pos rfl, if_neg hy]
        exact ih _ ⟨xp, hrest, hxp⟩

/-- C8: under the naive product-enumeration strategy with force_int
set, if the caller-supplied operator returns a non-integer value on
some tuple of the cross product of the pool values, the whole operation
evaluates to the raised error and produces no result distribution. -/
theorem naive_int_operator_fails_fast (oper : List ℚ → ℚ) (drvs : List RVdata)
    (xp : List (ℚ × ℚ)) (hne : drvs ≠ []) (hmem : xp ∈ crossTuples drvs)
    (hbad : ∀ k : ℤ, oper (xp.map Prod.fst) ≠ (k : ℚ)) :
    operate oper true drvs = Except.error "Output is not an integer." := by
  apply operateGo_error
  exact ⟨xp, hmem, fun hcontra => hbad (pyInt (oper (xp.map Prod.fst))) hcontra.symm⟩

/-- Witness for C8: a one-variable pool whose only value is one half,
summed with the integer-valued sum operator. -/
theorem naive_int_operator_fails_fast_witness :
    (([[((1 : ℚ)/2, 1)]] : List RVdata) ≠ [])
    ∧ ([((1 : ℚ)/2, 1)] ∈ crossTuples [[((1 : ℚ)/2, 1)]])
    ∧ (∀ k : ℤ, (fun xs : List ℚ => xs.sum) (([((1 : ℚ)/2, 1)]).map Prod.fst) ≠ (k : ℚ))
    ∧ operate (fun xs : List ℚ => xs.sum) true [[((1 : ℚ)/2, 1)]]
        = Except.error "Output is not an integer." := by
  have hbad : ∀ k : ℤ, (fun xs : List ℚ => xs.sum) (([((1 : ℚ)/2, 1)]).map Prod.fst) ≠ (k : ℚ) := by
    intro k hk
    simp only [List.map_cons, List.map_nil, List.sum_cons, List.sum_nil, add_zero] at hk
    have h2 : (1 : ℚ) = 2 * (k : ℚ) := by linarith
    have h3 : (1 : ℤ) = 2 * k := by exact_mod_cast h2
    omega
  refine ⟨by simp, by simp [crossTuples], hbad, ?_⟩
  exact naive_int_operator_fails_fast (fun xs : List ℚ => xs.sum) [[((1 : ℚ)/2, 1)]]
    [((1 : ℚ)/2, 1)] (by simp) (by simp [crossTuples]) hbad

lemma cdf_sub (X : FRDRV) (a b : ℚ) :
    cdf X a - cdf X b
    = ((OmegaList X.pspaces).map (fun ws =>
        (indicator (X.func ws ≤ a) - indicator (X.func ws ≤ b)) * probOf X.pspaces ws)).sum := by
  unfold cdf integrate
  rw [← list_sum_map_sub]
  apply congrArg
  apply List.map_congr_left
  intro ws _
  ring

/-- C5: for an integer-valued finite random variable with componentwise
nonnegative probabilities, the cdf increment at an integer point of the
support is the pmf there, and the cdf vanishes strictly below every
support value. -/
theorem cdf_pmf_roundtrip (X : FRDRV)
    (hint : ∀ ws ∈ OmegaList X.pspaces, ∃ k : ℤ, X.func ws = (k : ℚ))
    (hnn : ∀ P ∈ X.pspaces, ∀ q ∈ P.ps, 0 ≤ q) :
    (∀ v : ℤ, (v : ℚ) ∈ supportFinset X →
      cdf X (v : ℚ) - cdf X ((v : ℚ) - 1) = pmf X (v : ℚ))
    ∧ (∀ u : ℚ, (∀ y ∈ supportFinset X, u < y) → cdf X u = 0) := by
  constructor
  · intro v _
    rw [cdf_sub]
    unfold pmf integrate
    apply congrArg
    apply List.map_congr_left
    intro ws hws
    obtain ⟨k, hk⟩ := hint ws hws
    dsimp only
    rw [hk]
    congr 1
    have hcast2 : ((v : ℚ) - 1) = ((v - 1 : ℤ) : ℚ) := by push_cast; ring
    rw [hcast2]
    simp only [indicator, Int.cast_le, Int.cast_inj]
    split_ifs <;> first | (exfalso; omega) | norm_num
  · intro u hu
    unfold cdf integrate
    apply List.sum_eq_zero
    intro x hx
    rcases List.mem_map.mp hx with ⟨ws, hws, rfl⟩
    dsimp only
    by_cases hpos : 0 < probOf X.pspaces ws
    · have hmem : X.func ws ∈ supportFinset X := by
        unfold supportFinset supportList
        rw [List.mem_toFinset]
        exact List.mem_map_of_mem _ (List.mem_filter.mpr ⟨hws, by simpa using hpos⟩)
      have hnle : ¬ (X.func ws ≤ u) := not_le.mpr (hu _ hmem)
      simp [indicator, hnle]
    · have h0 : probOf X.pspaces ws = 0 :=
        le_antisymm (not_lt.mp hpos) (probOf_nonneg _ _ hnn)
      rw [h0, mul_zero]

/-- Witness for C5: the constant variable of value 3 over the
one-outcome space. -/
theorem cdf_pmf_roundtrip_witness :
    (∀ ws ∈ OmegaList (mkRV ⟨0, [1]⟩ (fun _ => (3 : ℚ))).pspaces,
      ∃ k : ℤ, (mkRV ⟨0, [1]⟩ (fun _ => (3 : ℚ))).func ws = (k : ℚ))
    ∧ (∀ P ∈ (mkRV ⟨0, [1]⟩ (fun _ => (3 : ℚ))).pspaces, ∀ q ∈ P.ps, 0 ≤ q)
    ∧ ((∀ v : ℤ, (v : ℚ) ∈ supportFinset (mkRV ⟨0, [1]⟩ (fun _ => (3 : ℚ))) →
        cdf (mkRV ⟨0, [1]⟩ (fun _ => (3 : ℚ))) (v : ℚ)
          - cdf (mkRV ⟨0, [1]⟩ (fun _ => (3 : ℚ))) ((v : ℚ) - 1)
          = pmf (mkRV ⟨0, [1]⟩ (fun _ => (3 : ℚ))) (v : ℚ))
      ∧ (∀ u : ℚ, (∀ y ∈ supportFinset (mkRV ⟨0, [1]⟩ (fun _ => (3 : ℚ))), u < y) →
          cdf (mkRV ⟨0, [1]⟩ (fun _ => (3 : ℚ))) u = 0)) := by
  have hint : ∀ ws ∈ OmegaList (mkRV ⟨0, [1]⟩ (fun _ => (3 : ℚ))).pspaces,
      ∃ k : ℤ, (mkRV ⟨0, [1]⟩ (fun _ => (3 : ℚ))).func ws = (k : ℚ) := by
    intro ws _
    exact ⟨3, by norm_num [mkRV]⟩
  have hnn : ∀ P ∈ (mkRV ⟨0, [1]⟩ (fun _ => (3 : ℚ))).pspaces, ∀ q ∈ P.ps, 0 ≤ q := by
    intro P hP q hq
    simp [mkRV] at hP
    subst hP
    simp at hq
    subst hq
    norm_num
  exact ⟨hint, hnn, cdf_pmf_roundtrip (mkRV ⟨0, [1]⟩ (fun _ => (3 : ℚ))) hint hnn⟩

/- Infrastructure for the flatten idempotence claim. -/

lemma flatten_map_singleton {α β : Type} (l : List α) (g : α → List β) :
    (l.map (fun x => [g x])).flatten = l.map g := by
  induction l with
  | nil => rfl
  | cons a t ih => simp [ih]

lemma OmegaList_single (P : Space) :
    OmegaList [P] = (List.range P.ps.length).map (fun w => [w]) := by
  show ((List.range P.ps.length).map (fun w => (OmegaList []).map (w :: ·))).flatten = _
  have : (fun w : ℕ => (OmegaList []).map (w :: ·)) = fun w : ℕ => [[w]] := by
    funext w; rfl
  rw [this, flatten_map_singleton]

lemma probOf_single (P : Space) (w : ℕ) : probOf [P] [w] = pyGet P.ps (w : ℤ) := by
  simp [probOf]

lemma indicator_nonneg (b : Prop) [Decidable b] : 0 ≤ indicator b := by
  unfold indicator; split <;> norm_num

lemma pmf_nonneg (X : FRDRV) (v : ℚ) (hnn : ∀ P ∈ X.pspaces, ∀ q ∈ P.ps, 0 ≤ q) :
    0 ≤ pmf X v := by
  unfold pmf integrate
  apply List.sum_nonneg
  intro x hx
  rcases List.mem_map.mp hx with ⟨ws, _, rfl⟩
  exact mul_nonneg (indicator_nonneg _) (probOf_nonneg _ _ hnn)

lemma mem_supportFinset (X : FRDRV) (v : ℚ) :
    v ∈ supportFinset X
    ↔ ∃ ws ∈ OmegaList X.pspaces, 0 < probOf X.pspaces ws ∧ X.func ws = v := by
  unfold supportFinset supportList
  rw [List.mem_toFinset, List.mem_map]
  constructor
  · rintro ⟨ws, hmem, rfl⟩
    rcases List.mem_filter.mp hmem with ⟨h1, h2⟩
    exact ⟨ws, h1, by simpa using h2, rfl⟩
  · rintro ⟨ws, h1, h2, rfl⟩
    exact ⟨ws, List.mem_filter.mpr ⟨h1, by simpa using h2⟩, rfl⟩

lemma pmf_pos_of_mem (X : FRDRV) (v : ℚ) (hnn : ∀ P ∈ X.pspaces, ∀ q ∈ P.ps, 0 ≤ q)
    (hv : v ∈ supportFinset X) : 0 < pmf X v := by
  obtain ⟨ws0, hws0, hpos, hfv⟩ := (mem_supportFinset X v).mp hv
  unfold pmf integrate
  apply list_sum_pos_mem _ (indicator (X.func ws0 = v) * probOf X.pspaces ws0)
  · exact List.mem_map_of_mem _ hws0
  · intro y hy
    rcases List.mem_map.mp hy with ⟨ws, _, rfl⟩
    exact mul_nonneg (indicator_nonneg _) (probOf_nonneg _ _ hnn)
  · rw [indicator, if_pos hfv, one_mul]
    exact hpos

lemma integrate_const_one (comps : List Space) :
    integrate comps (fun _ => 1) = (comps.map (fun P => P.ps.sum)).prod := by
  induction comps with
  | nil => rw [integrate_nil]; rfl
  | cons P rest ih =>
    rw [integrate_cons, List.map_cons, List.prod_cons]
    have step : (fun w : ℕ => pyGet P.ps (w : ℤ) * integrate rest fun ws => (fun _ => (1 : ℚ)) (w :: ws))
        = fun w : ℕ => pyGet P.ps (w : ℤ) * (rest.map (fun P => P.ps.sum)).prod := by
      funext w
      rw [show (fun ws => (fun _ => (1 : ℚ)) (w :: ws)) = fun _ => (1 : ℚ) from rfl, ih]
    rw [step, List.sum_map_mul_right, range_map_sum, sum_pyGet]

lemma sum_pmf_support (X : FRDRV) (hnn : ∀ P ∈ X.pspaces, ∀ q ∈ P.ps, 0 ≤ q) :
    ∑ v ∈ supportFinset X, pmf X v = integrate X.pspaces (fun _ => 1) := by
  unfold pmf integrate
  rw [list_finsetsum_swap]
  apply congrArg
  apply List.map_congr_left
  intro ws hws
  have hswap : ∑ v ∈ supportFinset X, indicator (X.func ws = v) * probOf X.pspaces ws
      = (∑ v ∈ supportFinset X, indicator (X.func ws = v)) * probOf X.pspaces ws :=
    (Finset.sum_mul _ _ _).symm
  rw [hswap]
  have hind : (∑ v ∈ supportFinset X, indicator (X.func ws = v))
      = if X.func ws ∈ supportFinset X then 1 else 0 := by
    simp only [indicator]
    exact Finset.sum_ite_eq _ _ _
  rw [hind]
  by_cases hpos : 0 < probOf X.pspaces ws
  · have hmem : X.func ws ∈ supportFinset X :=
      (mem_supportFinset X _).mpr ⟨ws, hws, hpos, rfl⟩
    rw [if_pos hmem]
  · have h0 : probOf X.pspaces ws = 0 :=
      le_antisymm (not_lt.mp hpos) (probOf_nonneg _ _ hnn)
    rw [h0, mul_zero, mul_zero]

lemma raw_sum_eq (X : FRDRV) :
    ((sortedSupport X).map (pmf X)).sum = ∑ v ∈ supportFinset X, pmf X v := by
  unfold sortedSupport
  rw [← List.sum_toFinset (pmf X) (Finset.sort_nodup _ _), Finset.sort_toFinset]

lemma min?_spec (l : List ℚ) (m : ℚ) (hm : l.min? = some m) : m ∈ l ∧ ∀ b ∈ l, m ≤ b :=
  (@List.min?_eq_some_iff ℚ m _ _ ⟨fun h1 h2 => le_antisymm h1 h2⟩ (fun a => le_refl a)
    (fun a b => min_choice a b) (fun a b c => le_min_iff)).mp hm

lemma f_normalize_of_norm (l : List ℚ) (hnn : ∀ q ∈ l, 0 ≤ q) (hsum : l.sum = 1) :
    f_normalize l = Except.ok l := by
  have hne : l ≠ [] := by
    intro hnil
    rw [hnil] at hsum
    simp at hsum
  obtain ⟨m, hm⟩ : ∃ m, l.min? = some m := by
    cases h : l.min? with
    | none => exact absurd (List.min?_eq_none_iff.mp h) hne
    | some m => exact ⟨m, rfl⟩
  obtain ⟨hmem, _⟩ := min?_spec l m hm
  have hfn : f_normalize l =
      (if m < 0 then Except.error NEG_PROB
       else if l.sum = 0 then Except.error ZERO_PROB
       else Except.ok (l.map (fun p => p / l.sum))) := by
    unfold f_normalize
    rw [hm]
  rw [hfn, if_neg (not_lt.mpr (hnn m hmem)), if_neg (by rw [hsum]; norm_num)]
  rw [hsum]
  simp

lemma flattenE_eval (X : FRDRV) (hnn : ∀ P ∈ X.pspaces, ∀ q ∈ P.ps, 0 ≤ q)
    (hsum : ∀ P ∈ X.pspaces, P.ps.sum = 1) :
    flattenE X = Except.ok ⟨[⟨0, (sortedSupport X).map (pmf X)⟩],
      fun ws => (sortedSupport X).getD (ws.headD 0) 0⟩ := by
  have hnnraw : ∀ q ∈ (sortedSupport X).map (pmf X), 0 ≤ q := by
    intro q hq
    rcases List.mem_map.mp hq with ⟨k, _, rfl⟩
    exact pmf_nonneg X k hnn
  have hsumraw : ((sortedSupport X).map (pmf X)).sum = 1 := by
    rw [raw_sum_eq, sum_pmf_support X hnn, integrate_const_one]
    apply List.prod_eq_one
    intro x hx
    rcases List.mem_map.mp hx with ⟨P, hP, rfl⟩
    exact hsum P hP
  unfold flattenE
  rw [f_normalize_of_norm _ hnnraw hsumraw]

lemma supportFinset_mk (s : ℕ) (ks : List ℚ) (pm : ℚ → ℚ)
    (hpos : ∀ i : ℕ, i < ks.length → 0 < pm (ks.getD i 0)) :
    supportFinset ⟨[⟨s, ks.map pm⟩], fun ws => ks.getD (ws.headD 0) 0⟩ = ks.toFinset := by
  ext v
  rw [mem_supportFinset]
  show (∃ ws ∈ OmegaList [⟨s, ks.map pm⟩], 0 < probOf [⟨s, ks.map pm⟩] ws
    ∧ ks.getD (ws.headD 0) 0 = v) ↔ v ∈ ks.toFinset
  constructor
  · rintro ⟨ws, hmem, _, rfl⟩
    rw [OmegaList_single] at hmem
    rcases List.mem_map.mp hmem with ⟨w, hwr, rfl⟩
    have hw : w < ks.length := by
      have := List.mem_range.mp hwr
      simpa using this
    rw [List.mem_toFinset]
    show ks.getD (([w] : List ℕ).headD 0) 0 ∈ ks
    rw [show ([w] : List ℕ).headD 0 = w from rfl, List.getD_eq_getElem _ _ hw]
    exact List.getElem_mem hw
  · intro hv
    rcases List.mem_iff_getElem.mp (List.mem_toFinset.mp hv) with ⟨i, hi, rfl⟩
    refine ⟨[i], ?_, ?_, ?_⟩
    · rw [OmegaList_single]
      exact List.mem_map_of_mem _ (List.mem_range.mpr (by simpa using hi))
    · rw [probOf_single]
      have hil : i < (ks.map pm).length := by simpa using hi
      rw [pyGet_lt _ i hil, List.getD_eq_getElem _ _ hil, List.getElem_map]
      have := hpos i hi
      rw [List.getD_eq_getElem _ _ hi] at this
      exact this
    · show ks.getD (([i] : List ℕ).headD 0) 0 = ks[i]
      rw [show ([i] : List ℕ).headD 0 = i from rfl, List.getD_eq_getElem _ _ hi]

lemma pmf_mk (s : ℕ) (ks : List ℚ) (pm : ℚ → ℚ) (hnd : ks.Nodup) (i : ℕ) (hi : i < ks.length) :
    pmf ⟨[⟨s, ks.map pm⟩], fun ws => ks.getD (ws.headD 0) 0⟩ (ks.getD i 0)
      = pm (ks.getD i 0) := by
  unfold pmf
  show integrate [⟨s, ks.map pm⟩]
      (fun ws => indicator (ks.getD (ws.headD 0) 0 = ks.getD i 0)) = pm (ks.getD i 0)
  rw [integrate_single]
  have hstep : ∀ w ∈ Finset.range (Space.ps ⟨s, ks.map pm⟩).length,
      pyGet (Space.ps ⟨s, ks.map pm⟩) (w : ℤ)
        * indicator (ks.getD (([w] : List ℕ).headD 0) 0 = ks.getD i 0)
      = if w = i then pm (ks.getD i 0) else 0 := by
    intro w hw
    have hwl : w < ks.length := by
      have := Finset.mem_range.mp hw
      simpa using this
    have hwm : w < (ks.map pm).length := by simpa using hwl
    rw [show ([w] : List ℕ).headD 0 = w from rfl]
    by_cases hwi : w = i
    · subst hwi
      rw [if_pos rfl, indicator, if_pos rfl, mul_one]
      show pyGet (ks.map pm) (w : ℤ) = pm (ks.getD w 0)
      rw [pyGet_lt _ w hwm, List.getD_eq_getElem _ _ hwm, List.getElem_map,
        List.getD_eq_getElem _ _ hwl]
    · rw [if_neg hwi]
      have hne : ks.getD w 0 ≠ ks.getD i 0 := by
        rw [List.getD_eq_getElem _ _ hwl, List.getD_eq_getElem _ _ hi]
        intro hc
        exact hwi (hnd.getElem_inj_iff.mp hc)
      rw [indicator, if_neg hne, mul_zero]
  rw [Finset.sum_congr rfl hstep]
  rw [Finset.sum_ite_eq' (Finset.range (Space.ps ⟨s, ks.map pm⟩).length) i
    (fun _ => pm (ks.getD i 0))]
  rw [if_pos (Finset.mem_range.mpr (by simpa using hi))]

lemma sorted_nodup (X : FRDRV) : (sortedSupport X).Nodup := Finset.sort_nodup _ _

lemma sorted_toFinset (X : FRDRV) : (sortedSupport X).toFinset = supportFinset X :=
  Finset.sort_toFinset _ _

lemma flatten_fixed_point (X : FRDRV) (hnn : ∀ P ∈ X.pspaces, ∀ q ∈ P.ps, 0 ≤ q)
    (hsum : ∀ P ∈ X.pspaces, P.ps.sum = 1) :
    flattenE ⟨[⟨0, (sortedSupport X).map (pmf X)⟩],
        fun ws => (sortedSupport X).getD (ws.headD 0) 0⟩
      = Except.ok ⟨[⟨0, (sortedSupport X).map (pmf X)⟩],
        fun ws => (sortedSupport X).getD (ws.headD 0) 0⟩ := by
  have hpos : ∀ i : ℕ, i < (sortedSupport X).length → 0 < pmf X ((sortedSupport X).getD i 0) := by
    intro i hi
    apply pmf_pos_of_mem X _ hnn
    rw [← sorted_toFinset X, List.mem_toFinset, List.getD_eq_getElem _ _ hi]
    exact List.getElem_mem hi
  have hnnC : ∀ P ∈ [(⟨0, (sortedSupport X).map (pmf X)⟩ : Space)], ∀ q ∈ P.ps, 0 ≤ q := by
    intro P hP q hq
    rcases List.mem_singleton.mp hP with rfl
    rcases List.mem_map.mp hq with ⟨k, _, rfl⟩
    exact pmf_nonneg X k hnn
  have hsumC : ∀ P ∈ [(⟨0, (sortedSupport X).map (pmf X)⟩ : Space)], P.ps.sum = 1 := by
    intro P hP
    rcases List.mem_singleton.mp hP with rfl
    show ((sortedSupport X).map (pmf X)).sum = 1
    rw [raw_sum_eq, sum_pmf_support X hnn, integrate_const_one]
    apply List.prod_eq_one
    intro x hx
    rcases List.mem_map.mp hx with ⟨P, hP, rfl⟩
    exact hsum P hP
  have hsupp : supportFinset ⟨[⟨0, (sortedSupport X).map (pmf X)⟩],
      fun ws => (sortedSupport X).getD (ws.headD 0) 0⟩ = supportFinset X := by
    rw [supportFinset_mk 0 (sortedSupport X) (pmf X) hpos, sorted_toFinset X]
  have hks : sortedSupport ⟨[⟨0, (sortedSupport X).map (pmf X)⟩],
      fun ws => (sortedSupport X).getD (ws.headD 0) 0⟩ = sortedSupport X := by
    show Finset.sort (· ≤ ·) (supportFinset ⟨[⟨0, (sortedSupport X).map (pmf X)⟩],
      fun ws => (sortedSupport X).getD (ws.headD 0) 0⟩) = sortedSupport X
    rw [hsupp]
    rfl
  have hraw : (sortedSupport ⟨[⟨0, (sortedSupport X).map (pmf X)⟩],
        fun ws => (sortedSupport X).getD (ws.headD 0) 0⟩).map
      (pmf ⟨[⟨0, (sortedSupport X).map (pmf X)⟩],
        fun ws => (sortedSupport X).getD (ws.headD 0) 0⟩)
      = (sortedSupport X).map (pmf X) := by
    rw [hks]
    apply List.map_congr_left
    intro k hk
    rcases List.mem_iff_getElem.mp hk with ⟨i, hi, rfl⟩
    rw [← List.getD_eq_getElem _ 0 hi]
    exact pmf_mk 0 (sortedSupport X) (pmf X) (sorted_nodup X) i hi
  rw [flattenE_eval _ hnnC hsumC, hraw, hks]

/-- C9: flatten is idempotent up to distribution: for a random variable
with componentwise nonnegative probabilities summing to one, flattening
the flattened variable gives a variable with the same support and the
same pmf at every support point (indeed the very same flattened
variable). -/
theorem flatten_idempotent (X : FRDRV)
    (hnn : ∀ P ∈ X.pspaces, ∀ q ∈ P.ps, 0 ≤ q)
    (hsum : ∀ P ∈ X.pspaces, P.ps.sum = 1) :
    ∀ X₁, flattenE X = Except.ok X₁ →
      ∃ X₂, flattenE X₁ = Except.ok X₂ ∧ supportFinset X₂ = supportFinset X₁
        ∧ ∀ v ∈ supportFinset X₁, pmf X₂ v = pmf X₁ v := by
  intro X₁ h1
  have hX1 : X₁ = ⟨[⟨0, (sortedSupport X).map (pmf X)⟩],
      fun ws => (sortedSupport X).getD (ws.headD 0) 0⟩ :=
    Except.ok.inj (h1.symm.trans (flattenE_eval X hnn hsum))
  subst hX1
  exact ⟨_, flatten_fixed_point X hnn hsum, rfl, fun v _ => rfl⟩

/-- Witness for C9: the constant variable of value 3 over the
one-outcome space with identity 5. -/
theorem flatten_idempotent_witness :
    (∀ P ∈ (mkRV ⟨5, [1]⟩ (fun _ => (3 : ℚ))).pspaces, ∀ q ∈ P.ps, 0 ≤ q)
    ∧ (∀ P ∈ (mkRV ⟨5, [1]⟩ (fun _ => (3 : ℚ))).pspaces, P.ps.sum = 1)
    ∧ (∀ X₁, flattenE (mkRV ⟨5, [1]⟩ (fun _ => (3 : ℚ))) = Except.ok X₁ →
        ∃ X₂, flattenE X₁ = Except.ok X₂ ∧ supportFinset X₂ = supportFinset X₁
          ∧ ∀ v ∈ supportFinset X₁, pmf X₂ v = pmf X₁ v) := by
  have hnn : ∀ P ∈ (mkRV ⟨5, [1]⟩ (fun _ => (3 : ℚ))).pspaces, ∀ q ∈ P.ps, 0 ≤ q := by
    intro P hP q hq
    simp [mkRV] at hP
    subst hP
    simp at hq
    subst hq
    norm_num
  have hsum : ∀ P ∈ (mkRV ⟨5, [1]⟩ (fun _ => (3 : ℚ))).pspaces, P.ps.sum = 1 := by
    intro P hP
    simp [mkRV] at hP
    subst hP
    simp
  exact ⟨hnn, hsum, flatten_idempotent (mkRV ⟨5, [1]⟩ (fun _ => (3 : ℚ))) hnn hsum⟩
